import Mathlib

/-!
Verification of the stock-data caching and upstream-access-control layer of
the RobinhoodClone repository (React Native frontend, Flask backend).

The backend service layer (app.py / services.py, holding RateLimiter,
CacheCoordinator, the cache-store adapters and WatchlistGuard) is not present
in the available sources; only its documentation (README.md, backend/README.md)
and its frontend callers are.  Those components are therefore modelled from
the specification, and each such definition carries a doc comment starting
with "Modelled from the spec:".  The frontend screens (SearchScreen,
StockDetailScreen) are present as JavaScript source and are embedded directly.

Time is modelled in whole seconds as Nat; all definitions are executable.
-/

namespace RobinhoodClone

/-! ## RateLimiter (spec 4.2) -/

/-- Modelled from the spec: the RateLimiter of spec section 4.2 (backend
services code missing from the sources).  It keeps the trailing-window record
of upstream-call timestamps ("RateWindow", spec section 3) together with its
configuration: `windowSec` the trailing window length in seconds and `budget`
the maximum number of calls inside the window. -/
structure RateLimiter where
  windowSec : Nat
  budget : Nat
  calls : List Nat
deriving Repr, DecidableEq

/-- Number of recorded call timestamps lying within the trailing window at
time `now`: those `t` with `now < t + windowSec`, i.e. strictly less than
`windowSec` seconds old. -/
def RateLimiter.windowCount (rl : RateLimiter) (now : Nat) : Nat :=
  rl.calls.countP (fun t => decide (now < t + rl.windowSec))

/-- Modelled from the spec: `TryAdmit` of spec section 4.2 (backend services
code missing from the sources).  Admission succeeds iff the number of recorded
calls within the window is strictly below the budget; on success the current
timestamp is recorded.  Returns the decision and the updated limiter. -/
def RateLimiter.tryAdmit (rl : RateLimiter) (now : Nat) : Bool × RateLimiter :=
  if rl.windowCount now < rl.budget then
    (true, { rl with calls := now :: rl.calls })
  else
    (false, rl)

/-- Run a sequence of admission attempts at the given times, keeping only the
limiter state. -/
def RateLimiter.runAdmits (rl : RateLimiter) (times : List Nat) : RateLimiter :=
  times.foldl (fun r t => (r.tryAdmit t).2) rl

/-- The Alpha Vantage free-tier limiter documented in README.md: 5 calls per
60 seconds, starting with no recorded calls. -/
def limiter0 : RateLimiter := ⟨60, 5, []⟩

/-- State invariant used for the budget proof: every recorded timestamp is in
the past and the window count is within budget. -/
def RateLimiter.Inv (rl : RateLimiter) (now : Nat) : Prop :=
  (∀ t ∈ rl.calls, t ≤ now) ∧ rl.windowCount now ≤ rl.budget

theorem RateLimiter.windowCount_mono (rl : RateLimiter) {n m : Nat} (h : n ≤ m) :
    rl.windowCount m ≤ rl.windowCount n := by
  unfold RateLimiter.windowCount
  apply List.countP_mono_left
  intro t _ ht
  simp only [decide_eq_true_eq] at ht ⊢
  omega

theorem RateLimiter.Inv.mono {rl : RateLimiter} {n m : Nat}
    (h : rl.Inv n) (hnm : n ≤ m) : rl.Inv m := by
  refine ⟨fun t ht => le_trans (h.1 t ht) hnm, le_trans (rl.windowCount_mono hnm) h.2⟩

theorem RateLimiter.Inv.step {rl : RateLimiter} {n m : Nat}
    (h : rl.Inv n) (hnm : n ≤ m) : (rl.tryAdmit m).2.Inv m := by
  have hm : rl.Inv m := h.mono hnm
  unfold RateLimiter.tryAdmit
  split
  · rename_i hlt
    constructor
    · intro t ht
      simp only [List.mem_cons] at ht
      rcases ht with rfl | ht
      · exact le_refl _
      · exact hm.1 t ht
    · show RateLimiter.windowCount ⟨rl.windowSec, rl.budget, m :: rl.calls⟩ m ≤ rl.budget
      simp only [RateLimiter.windowCount, List.countP_cons] at hlt ⊢
      split <;> omega
  · exact hm

theorem RateLimiter.Inv.run {times : List Nat} {rl : RateLimiter} {n : Nat}
    (h : rl.Inv n) (hsort : times.Pairwise (· ≤ ·))
    (hlo : ∀ t ∈ times, n ≤ t) :
    ∀ m, n ≤ m → (∀ t ∈ times, t ≤ m) → (rl.runAdmits times).Inv m := by
  induction times generalizing rl n with
  | nil =>
    intro m hm _
    exact h.mono hm
  | cons t rest ih =>
    intro m hm hhi
    have h1 : (rl.tryAdmit t).2.Inv t := h.step (hlo t (List.mem_cons_self t rest))
    have hrest : rest.Pairwise (· ≤ ·) := (List.pairwise_cons.mp hsort).2
    have hlo' : ∀ s ∈ rest, t ≤ s := (List.pairwise_cons.mp hsort).1
    have := ih h1 hrest hlo' m (hhi t (List.mem_cons_self t rest))
      (fun s hs => hhi s (List.mem_cons_of_mem t hs))
    simpa [RateLimiter.runAdmits] using this

theorem RateLimiter.tryAdmit_budget (rl : RateLimiter) (now : Nat) :
    (rl.tryAdmit now).2.budget = rl.budget := by
  unfold RateLimiter.tryAdmit
  split <;> rfl

theorem RateLimiter.runAdmits_budget (times : List Nat) (rl : RateLimiter) :
    (rl.runAdmits times).budget = rl.budget := by
  induction times generalizing rl with
  | nil => rfl
  | cons t rest ih =>
    simp only [RateLimiter.runAdmits, List.foldl_cons]
    exact (ih _).trans (rl.tryAdmit_budget t)

/-- C1: `TryAdmit` admits exactly when the trailing-window count is strictly
below the budget; exactly on admission it records the current timestamp; and
along every (chronologically ordered) sequence of admission attempts started
from the fresh 5-per-60-seconds limiter, the count of recorded timestamps
within the trailing window never exceeds the budget of 5 at any moment at or
after the decisions. -/
theorem rateLimiter_tryAdmit_spec (rl : RateLimiter) (now : Nat) :
    ((rl.tryAdmit now).1 = true ↔ rl.windowCount now < rl.budget) ∧
    ((rl.tryAdmit now).2.calls =
      if (rl.tryAdmit now).1 then now :: rl.calls else rl.calls) ∧
    (∀ times : List Nat, times.Pairwise (· ≤ ·) →
      ∀ m, (∀ t ∈ times, t ≤ m) →
        (limiter0.runAdmits times).windowCount m ≤ 5) := by
  refine ⟨?_, ?_, ?_⟩
  · unfold RateLimiter.tryAdmit
    split <;> simp_all
  · unfold RateLimiter.tryAdmit
    split <;> simp
  · intro times hsort m hhi
    have h0 : limiter0.Inv 0 := by
      constructor
      · intro t ht
        simp [limiter0] at ht
      · simp [limiter0, RateLimiter.windowCount]
    have h2 := (RateLimiter.Inv.run h0 hsort (fun t _ => Nat.zero_le t) m (Nat.zero_le m) hhi).2
    rwa [RateLimiter.runAdmits_budget] at h2

theorem rateLimiter_tryAdmit_spec_witness :
    (limiter0.runAdmits [0, 0, 0, 0, 0, 0, 0]).windowCount 0 ≤ 5 :=
  (rateLimiter_tryAdmit_spec limiter0 0).2.2 [0, 0, 0, 0, 0, 0, 0] (by decide) 0 (by decide)

/-! ## FastStore / DurableStore adapter (spec 4.4, CacheEntry of spec 3) -/

/-- Modelled from the spec: a cache entry of spec section 3 wrapping a stored
value with its key, store time and TTL (backend store-adapter code missing
from the sources).  The store itself is an association list, newest binding
first; an upsert shadows older rows, and expiry never deletes a row (lazy
eviction). -/
structure StoreEntry (α : Type) where
  value : α
  storedAt : Nat
  ttl : Nat
deriving Repr, DecidableEq

/-- Raw lookup of the newest physically present row for a key, ignoring any
TTL.  Shared by the store adapters and the coordinator's two stores. -/
def lookupRow {α : Type} (s : List (String × α)) (k : String) : Option α :=
  match s with
  | [] => none
  | p :: rest => if p.1 = k then some p.2 else lookupRow rest k

/-- Modelled from the spec: the adapter operation `Put(key, value, ttl)` of
spec section 4.4 (backend store-adapter code missing from the sources).  The
new row shadows any older row for the key. -/
def storePut {α : Type} (s : List (String × StoreEntry α)) (k : String)
    (v : α) (ttl now : Nat) : List (String × StoreEntry α) :=
  (k, ⟨v, now, ttl⟩) :: s

/-- Modelled from the spec: the adapter operation `Get(key)` of spec
section 4.4 returning `(value, found)` (backend store-adapter code missing
from the sources).  An entry is valid while `now - storedAt ≤ ttl`; an expired
entry is reported absent although the row physically remains. -/
def storeGet {α : Type} (s : List (String × StoreEntry α)) (k : String)
    (now : Nat) : Option α × Bool :=
  match lookupRow s k with
  | some e => if now - e.storedAt ≤ e.ttl then (some e.value, true) else (none, false)
  | none => (none, false)

/-- C6: a value written by `Put` and read back by `Get` strictly before its
TTL elapses is returned exactly, with `found = true`; once the TTL has
elapsed, `Get` reports `found = false` and returns no value, while the stored
row physically remains in the underlying list (lazy eviction, no deletion at
expiry). -/
theorem store_put_get_roundtrip {α : Type} (s : List (String × StoreEntry α))
    (k : String) (v : α) (ttl now now' : Nat) :
    (now' - now ≤ ttl → storeGet (storePut s k v ttl now) k now' = (some v, true)) ∧
    (ttl < now' - now → storeGet (storePut s k v ttl now) k now' = (none, false)) ∧
    lookupRow (storePut s k v ttl now) k = some ⟨v, now, ttl⟩ := by
  refine ⟨?_, ?_, ?_⟩
  · intro h
    simp [storeGet, storePut, lookupRow, h]
  · intro h
    simp [storeGet, storePut, lookupRow]
    omega
  · simp [storePut, lookupRow]

theorem store_put_get_roundtrip_witness :
    storeGet (storePut ([] : List (String × StoreEntry Nat)) "AAPL" 7 60 100) "AAPL" 150
      = (some 7, true) ∧
    storeGet (storePut ([] : List (String × StoreEntry Nat)) "AAPL" 7 60 100) "AAPL" 161
      = (none, false) :=
  ⟨(store_put_get_roundtrip [] "AAPL" 7 60 100 150).1 (by decide),
   (store_put_get_roundtrip [] "AAPL" 7 60 100 161).2.1 (by decide)⟩

/-! ## WatchlistGuard (spec 4.5, MAX_WATCHLIST_SIZE from backend/README.md) -/

/-- Maximum watchlist size per user, documented as configuration in
backend/README.md. -/
def MAX_WATCHLIST_SIZE : Nat := 50

/-- Modelled from the spec: the watchlist table of spec section 3, a list of
(userId, symbol) rows (backend models/services code missing from the
sources).  The `addedAt` column plays no role in the guarded operations and
is omitted. -/
structure Watchlist where
  entries : List (Nat × String)
deriving Repr, DecidableEq

inductive WatchlistError
  | WatchlistFull
  | AlreadyWatched
deriving Repr, DecidableEq

/-- Number of watchlist rows belonging to a user. -/
def Watchlist.countUser (w : Watchlist) (u : Nat) : Nat :=
  (w.entries.filter (fun e => decide (e.1 = u))).length

/-- Whether the (userId, symbol) row exists. -/
def Watchlist.hasEntry (w : Watchlist) (u : Nat) (s : String) : Bool :=
  decide ((u, s) ∈ w.entries)

/-- Modelled from the spec: `WatchlistGuard.Add` of spec section 4.5 (backend
services code missing from the sources).  It fails with `WatchlistFull` when
the user's current entry count equals `MAX_WATCHLIST_SIZE`, fails with
`AlreadyWatched` when the (userId, symbol) row already exists, and otherwise
inserts the row. -/
def Watchlist.add (w : Watchlist) (u : Nat) (s : String) :
    Except WatchlistError Watchlist :=
  if w.countUser u = MAX_WATCHLIST_SIZE then .error .WatchlistFull
  else if w.hasEntry u s then .error .AlreadyWatched
  else .ok ⟨(u, s) :: w.entries⟩

/-- Modelled from the spec: `WatchlistGuard.Remove` of spec section 4.5
(backend services code missing from the sources).  Removing an absent row is
not an error; the operation always returns the watchlist without the row. -/
def Watchlist.remove (w : Watchlist) (u : Nat) (s : String) : Watchlist :=
  ⟨w.entries.filter (fun e => decide (e ≠ (u, s)))⟩

/-- Sequential `Add` calls, stopping at the first error. -/
def Watchlist.addAll (w : Watchlist) (u : Nat) : List String → Except WatchlistError Watchlist
  | [] => .ok w
  | s :: rest =>
    match w.add u s with
    | .ok w' => w'.addAll u rest
    | .error e => .error e

/-- C8: `Remove` is idempotent: removing an absent row returns the watchlist
unchanged (no error is possible as `Remove` is total), after `Remove` the
(userId, symbol) row is absent whether or not it existed before, and removing
a second time changes nothing. -/
theorem watchlist_remove_idempotent (w : Watchlist) (u : Nat) (s : String) :
    (w.hasEntry u s = false → w.remove u s = w) ∧
    (w.remove u s).hasEntry u s = false ∧
    (w.remove u s).remove u s = w.remove u s := by
  refine ⟨?_, ?_, ?_⟩
  · intro h
    simp only [Watchlist.hasEntry, decide_eq_false_iff_not] at h
    simp only [Watchlist.remove]
    cases w with
    | mk es =>
      congr 1
      apply List.filter_eq_self.mpr
      intro e he
      simp only [decide_eq_true_eq]
      rintro rfl
      exact h he
  · simp only [Watchlist.hasEntry, Watchlist.remove, decide_eq_false_iff_not]
    intro hmem
    rcases List.mem_filter.mp hmem with ⟨_, hdec⟩
    simp at hdec
  · simp [Watchlist.remove, List.filter_filter]

theorem watchlist_remove_idempotent_witness :
    (Watchlist.mk [(0, "AAPL")]).remove 0 "TSLA" = Watchlist.mk [(0, "AAPL")] :=
  (watchlist_remove_idempotent ⟨[(0, "AAPL")]⟩ 0 "TSLA").1 (by decide)

theorem length_filter_ne {α : Type} [DecidableEq α] (a : α) (l : List α)
    (hnd : l.Nodup) (ha : a ∈ l) :
    (l.filter (fun x => decide (x ≠ a))).length + 1 = l.length := by
  induction l with
  | nil => cases ha
  | cons b rest ih =>
    rw [List.filter_cons]
    by_cases hba : b = a
    · subst hba
      have hnotin : b ∉ rest := (List.nodup_cons.mp hnd).1
      have hkeep : rest.filter (fun x => decide (x ≠ b)) = rest := by
        apply List.filter_eq_self.mpr
        intro x hx
        simp only [ne_eq, decide_eq_true_eq]
        rintro rfl
        exact hnotin hx
      rw [if_neg (by simp), hkeep]
      simp
    · have ha' : a ∈ rest := by
        rcases List.mem_cons.mp ha with h | h
        · exact absurd h.symm hba
        · exact h
      have hih := ih (List.nodup_cons.mp hnd).2 ha'
      rw [if_pos (by simp only [ne_eq, decide_eq_true_eq]; exact fun h => hba h)]
      simp only [List.length_cons]
      omega

theorem countUser_map_self (u : Nat) (l : List String) :
    ((l.map (fun x => (u, x))).filter (fun e => decide (e.1 = u))).length = l.length := by
  induction l with
  | nil => rfl
  | cons x xs ih =>
    simp only [List.map_cons, List.filter_cons]
    rw [if_pos (by simp)]
    simp [ih]

theorem Watchlist.addAll_ok (u : Nat) (ss : List String) :
    ∀ (w : Watchlist), ss.Nodup →
      (∀ s ∈ ss, (u, s) ∉ w.entries) →
      w.countUser u + ss.length ≤ MAX_WATCHLIST_SIZE →
      ∃ w' : Watchlist, w.addAll u ss = .ok w' ∧
        w'.entries = (ss.reverse.map (fun s => (u, s))) ++ w.entries := by
  induction ss with
  | nil =>
    intro w _ _ _
    exact ⟨w, rfl, by simp⟩
  | cons s rest ih =>
    intro w hnd hfresh hle
    have hcnt : w.countUser u ≠ MAX_WATCHLIST_SIZE := by
      simp only [List.length_cons] at hle
      omega
    have hhas : w.hasEntry u s = false := by
      simp only [Watchlist.hasEntry, decide_eq_false_iff_not]
      exact hfresh s (List.mem_cons_self s rest)
    have hadd : w.add u s = .ok ⟨(u, s) :: w.entries⟩ := by
      simp [Watchlist.add, hcnt, hhas]
    have hcnt1 : (Watchlist.mk ((u, s) :: w.entries)).countUser u = w.countUser u + 1 := by
      simp [Watchlist.countUser, List.filter_cons]
    have hfresh1 : ∀ s' ∈ rest, (u, s') ∉ ((u, s) :: w.entries) := by
      intro s' hs'
      simp only [List.mem_cons, not_or]
      constructor
      · intro hEq
        have : s' = s := by
          simpa [Prod.ext_iff] using hEq
        exact (List.nodup_cons.mp hnd).1 (this ▸ hs')
      · exact hfresh s' (List.mem_cons_of_mem s hs')
    obtain ⟨w', h1, h2⟩ := ih ⟨(u, s) :: w.entries⟩ (List.nodup_cons.mp hnd).2 hfresh1
      (by simp only [List.length_cons] at hle; omega)
    refine ⟨w', ?_, ?_⟩
    · simp only [Watchlist.addAll, hadd]
      exact h1
    · rw [h2]
      simp

/-- C5: `Add` fails with `WatchlistFull` exactly when the user's current
entry count equals `MAX_WATCHLIST_SIZE` (50); a successful `Add` keeps every
per-user entry count at or below 50; and for any 51 distinct symbols, 50
`Add` calls from an empty watchlist all succeed, the 51st fails with
`WatchlistFull`, and a `Remove` of any of the user's symbols followed by
another `Add` of the 51st symbol succeeds again. -/
theorem watchlistGuard_add_full_spec (u : Nat) (s : String) (w : Watchlist) :
    (w.add u s = .error .WatchlistFull ↔ w.countUser u = MAX_WATCHLIST_SIZE) ∧
    (∀ w', w.add u s = .ok w' → ∀ u', w.countUser u' ≤ MAX_WATCHLIST_SIZE →
        w'.countUser u' ≤ MAX_WATCHLIST_SIZE) ∧
    (∀ ss : List String, ss.Nodup → ss.length = MAX_WATCHLIST_SIZE → s ∉ ss →
      ∃ w50 : Watchlist, Watchlist.addAll ⟨[]⟩ u ss = .ok w50 ∧
        w50.countUser u = MAX_WATCHLIST_SIZE ∧
        w50.add u s = .error .WatchlistFull ∧
        ∀ s' ∈ ss, ∃ w'', (w50.remove u s').add u s = .ok w'') := by
  refine ⟨?_, ?_, ?_⟩
  · unfold Watchlist.add
    constructor
    · intro h
      by_contra hne
      simp only [hne, if_false] at h
      split at h <;> simp_all
    · intro h
      simp [h]
  · intro w' hok u' hle
    unfold Watchlist.add at hok
    split at hok
    · cases hok
    · rename_i hne
      split at hok
      · cases hok
      · cases hok
        simp only [Watchlist.countUser, List.filter_cons]
        split
        · rename_i hu
          simp only [decide_eq_true_eq] at hu
          subst hu
          simp only [List.length_cons]
          simp only [Watchlist.countUser] at hne hle
          omega
        · exact hle
  · intro ss hnd hlen hnotin
    obtain ⟨w50, h1, h2⟩ := Watchlist.addAll_ok u ss ⟨[]⟩ hnd (by simp)
      (by simp [Watchlist.countUser, hlen])
    have hentries : w50.entries = ss.reverse.map (fun x => (u, x)) := by
      simpa using h2
    have hcount : w50.countUser u = MAX_WATCHLIST_SIZE := by
      simp [Watchlist.countUser, hentries, List.filter_map, Function.comp_def, hlen]
    refine ⟨w50, h1, hcount, ?_, ?_⟩
    · simp [Watchlist.add, hcount]
    · intro s' hs'
      have hrem : (w50.remove u s').entries =
          ((ss.reverse.filter (fun x => decide (x ≠ s'))).map (fun x => (u, x))) := by
        simp only [Watchlist.remove, hentries, List.filter_map]
        congr 1
        apply List.filter_congr
        intro x _
        simp [Prod.ext_iff]
      have hcnt49 : (w50.remove u s').countUser u + 1 = MAX_WATCHLIST_SIZE := by
        have hnd' : ss.reverse.Nodup := List.nodup_reverse.mpr hnd
        have hs'' : s' ∈ ss.reverse := List.mem_reverse.mpr hs'
        have hlf := length_filter_ne s' ss.reverse hnd' hs''
        have hlen' : ss.reverse.length = MAX_WATCHLIST_SIZE := by simp [hlen]
        unfold Watchlist.countUser
        rw [hrem, countUser_map_self]
        omega
      have hhas' : (w50.remove u s').hasEntry u s = false := by
        simp only [Watchlist.hasEntry, decide_eq_false_iff_not, hrem, List.mem_map]
        rintro ⟨x, hx, hEq⟩
        have hxs : x = s := by
          simpa [Prod.ext_iff] using hEq
        subst hxs
        exact hnotin (List.mem_reverse.mp (List.mem_of_mem_filter hx))
      refine ⟨⟨(u, s) :: (w50.remove u s').entries⟩, ?_⟩
      simp only [Watchlist.add, hhas']
      rw [if_neg (by omega)]
      simp

/-- Fifty distinct symbols used to witness the watchlist-size scenario. -/
def demoSymbols : List String := ["A00", "A01", "A02", "A03", "A04", "A05", "A06", "A07", "A08", "A09", "A10", "A11", "A12", "A13", "A14", "A15", "A16", "A17", "A18", "A19", "A20", "A21", "A22", "A23", "A24", "A25", "A26", "A27", "A28", "A29", "A30", "A31", "A32", "A33", "A34", "A35", "A36", "A37", "A38", "A39", "A40", "A41", "A42", "A43", "A44", "A45", "A46", "A47", "A48", "A49"]

theorem watchlistGuard_add_full_spec_witness :
    ∃ w50 : Watchlist, Watchlist.addAll ⟨[]⟩ 0 demoSymbols = .ok w50 ∧
      w50.countUser 0 = MAX_WATCHLIST_SIZE ∧
      w50.add 0 "ZZZ" = .error .WatchlistFull ∧
      ∀ s' ∈ demoSymbols, ∃ w'', ((w50.remove 0 s').add 0 "ZZZ" = .ok w'') :=
  (watchlistGuard_add_full_spec 0 "ZZZ" ⟨[]⟩).2.2 demoSymbols (by decide) (by decide) (by decide)

/-! ## CacheCoordinator (spec 4.1) -/

/-- Modelled from the spec: the QuoteRecord domain type of spec section 3
(backend services code missing from the sources).  Price and monetary changes
are modelled in integer cents to stay in exact arithmetic. -/
structure QuoteRecord where
  symbol : String
  price : Nat
  change : Int
  changePercent : Int
  volume : Nat
  upstreamTs : Nat
  fetchTs : Nat
deriving Repr, DecidableEq

/-- A coordinator cache entry: a quote with the time it was stored.  The TTL
is the per-type policy constant of spec section 4.1 and is applied by the
coordinator, not stored per entry. -/
structure CacheEntry where
  value : QuoteRecord
  storedAt : Nat
deriving Repr, DecidableEq

/-- Origin tag attached to every coordinator response (spec sections 4.1
and 6). -/
inductive Origin
  | FAST_HIT
  | DURABLE_HIT
  | STALE_FALLBACK
  | UPSTREAM_FETCH
deriving Repr, DecidableEq

/-- Coordinator failure surfaced to the caller (spec section 7): local
rate-limit denials and provider errors are converted into stale fallback
first and only ever surface as `UpstreamUnavailable`. -/
inductive CoordError
  | UpstreamUnavailable
deriving Repr, DecidableEq

/-- Modelled from the spec: the coordinator's mutable collaborators (fast
store, durable store, rate limiter) plus a counter of UpstreamClient
invocations used to express the no-upstream-call properties. -/
structure CoordState where
  fast : List (String × CacheEntry)
  durable : List (String × CacheEntry)
  limiter : RateLimiter
  upCalls : Nat
deriving Repr, DecidableEq

/-- Normalized cache key: symbols are case-insensitive, normalized to
uppercase (spec sections 4.1 and 6).  Stated over the character list so that
it evaluates by kernel reduction; it agrees with `String.toUpper`. -/
def normKey (sym : String) : String := ⟨sym.data.map Char.toUpper⟩

/-- Validity of a cached entry at `now` under a TTL (spec section 3). -/
def isFresh (now storedAt ttl : Nat) : Bool := decide (now - storedAt ≤ ttl)

/-- Quote TTL policy constant (spec section 4.1: quote = 60s). -/
def quoteTtl : Nat := 60

/-- Result of a coordinator operation: the response (or failure) and the
updated coordinator state. -/
abbrev CoordResult := Except CoordError (QuoteRecord × Origin) × CoordState

/-- Modelled from the spec: step 4's denial behaviour of spec section 4.1
(backend services code missing from the sources): return the most recent
DurableStore value regardless of staleness, tagged `STALE_FALLBACK`; if none
exists, fail with `UpstreamUnavailable`.  The state is left unchanged. -/
def staleFallback (st : CoordState) (key : String) : CoordResult :=
  match lookupRow st.durable key with
  | some e => (.ok (e.value, .STALE_FALLBACK), st)
  | none => (.error .UpstreamUnavailable, st)

/-- Modelled from the spec: steps 4-5 of spec section 4.1 (backend services
code missing from the sources).  Admission is requested from the RateLimiter;
on denial the stale fallback is used.  If admitted, UpstreamClient is called
(counted in `upCalls`); on success the result is written to DurableStore and
FastStore and tagged `UPSTREAM_FETCH`; on upstream failure the stale fallback
is used. -/
def fetchPath (upstream : String → Option QuoteRecord) (st : CoordState)
    (key : String) (now : Nat) : CoordResult :=
  match st.limiter.tryAdmit now with
  | (true, rl) =>
    let stc : CoordState := { st with limiter := rl, upCalls := st.upCalls + 1 }
    match upstream key with
    | some q =>
      (.ok (q, .UPSTREAM_FETCH),
        { stc with durable := (key, ⟨q, now⟩) :: stc.durable,
                   fast := (key, ⟨q, now⟩) :: stc.fast })
    | none => staleFallback stc key
  | (false, _) => staleFallback st key

/-- Modelled from the spec: step 3 of spec section 4.1 (backend services code
missing from the sources).  A DurableStore value fresh under the relaxed
durable TTL is returned tagged `DURABLE_HIT` and promoted into FastStore
("L2 hit-and-promote", spec section 2); the background refresh mentioned in
step 3 is asynchronous and not part of the request's synchronous effects.
Otherwise the fetch path runs. -/
def durablePath (durableTtl : Nat) (upstream : String → Option QuoteRecord)
    (st : CoordState) (key : String) (now : Nat) : CoordResult :=
  match lookupRow st.durable key with
  | some e =>
    if isFresh now e.storedAt durableTtl then
      (.ok (e.value, .DURABLE_HIT),
        { st with fast := (key, ⟨e.value, now⟩) :: st.fast })
    else fetchPath upstream st key now
  | none => fetchPath upstream st key now

/-- Modelled from the spec: `GetQuote` of spec section 4.1 (backend services
code missing from the sources), steps 1-5: normalize the key, try FastStore
under the fast TTL, then DurableStore under the relaxed durable TTL, then the
admission-guarded upstream fetch with stale fallback. -/
def getQuote (fastTtl durableTtl : Nat) (upstream : String → Option QuoteRecord)
    (st : CoordState) (sym : String) (now : Nat) : CoordResult :=
  match lookupRow st.fast (normKey sym) with
  | some e =>
    if isFresh now e.storedAt fastTtl then (.ok (e.value, .FAST_HIT), st)
    else durablePath durableTtl upstream st (normKey sym) now
  | none => durablePath durableTtl upstream st (normKey sym) now

theorem staleFallback_snd (st : CoordState) (key : String) :
    (staleFallback st key).2 = st := by
  unfold staleFallback
  cases lookupRow st.durable key <;> rfl

/-- C7: when the FastStore check misses (no entry, or the entry is not fresh
under the fast TTL) and DurableStore holds a value fresh under the relaxed
durable TTL, `GetQuote` returns that value tagged `DURABLE_HIT`, makes no
UpstreamClient call (the call counter is unchanged) and leaves the RateWindow
untouched. -/
theorem coordinator_durable_hit (fastTtl durableTtl : Nat)
    (upstream : String → Option QuoteRecord) (st : CoordState) (sym : String)
    (now : Nat) (e : CacheEntry)
    (hfast : ∀ e', lookupRow st.fast (normKey sym) = some e' →
      isFresh now e'.storedAt fastTtl = false)
    (hdur : lookupRow st.durable (normKey sym) = some e)
    (hfresh : isFresh now e.storedAt durableTtl = true) :
    (getQuote fastTtl durableTtl upstream st sym now).1 = .ok (e.value, .DURABLE_HIT) ∧
    (getQuote fastTtl durableTtl upstream st sym now).2.limiter = st.limiter ∧
    (getQuote fastTtl durableTtl upstream st sym now).2.upCalls = st.upCalls := by
  have hd : durablePath durableTtl upstream st (normKey sym) now =
      (.ok (e.value, .DURABLE_HIT),
        { st with fast := (normKey sym, ⟨e.value, now⟩) :: st.fast }) := by
    unfold durablePath
    simp [hdur, hfresh]
  have hg : getQuote fastTtl durableTtl upstream st sym now =
      (.ok (e.value, .DURABLE_HIT),
        { st with fast := (normKey sym, ⟨e.value, now⟩) :: st.fast }) := by
    unfold getQuote
    cases hf : lookupRow st.fast (normKey sym) with
    | none => exact hd
    | some e' =>
      have hstale := hfast e' hf
      simp only [hstale]
      simp only [Bool.false_eq_true, if_false]
      exact hd
  rw [hg]
  exact ⟨rfl, rfl, rfl⟩

/-- Example quote record used in concrete witnesses. -/
def sampleQuote : QuoteRecord := ⟨"AAPL", 15000, 25, 17, 1000, 0, 0⟩

theorem coordinator_durable_hit_witness :
    (getQuote 60 300 (fun _ => none)
        ⟨[], [("AAPL", ⟨sampleQuote, 0⟩)], limiter0, 0⟩ "AAPL" 100).1
      = .ok (sampleQuote, .DURABLE_HIT) ∧
    (getQuote 60 300 (fun _ => none)
        ⟨[], [("AAPL", ⟨sampleQuote, 0⟩)], limiter0, 0⟩ "AAPL" 100).2.limiter = limiter0 ∧
    (getQuote 60 300 (fun _ => none)
        ⟨[], [("AAPL", ⟨sampleQuote, 0⟩)], limiter0, 0⟩ "AAPL" 100).2.upCalls = 0 :=
  coordinator_durable_hit 60 300 (fun _ => none)
    ⟨[], [("AAPL", ⟨sampleQuote, 0⟩)], limiter0, 0⟩ "AAPL" 100 ⟨sampleQuote, 0⟩
    (fun e' h => by simp [lookupRow, normKey] at h)
    (by decide) (by decide)

/-- C3: when both freshness checks miss and the RateLimiter denies admission,
`GetQuote` returns the most recent DurableStore value tagged
`STALE_FALLBACK` whenever one exists, and fails with `UpstreamUnavailable`
exactly when none exists; the denial itself is never surfaced (`CoordError`
has no rate-limit constructor and both denial outcomes are covered here). -/
theorem coordinator_denied_stale_fallback (fastTtl durableTtl : Nat)
    (upstream : String → Option QuoteRecord) (st : CoordState) (sym : String)
    (now : Nat)
    (hfast : ∀ e', lookupRow st.fast (normKey sym) = some e' →
      isFresh now e'.storedAt fastTtl = false)
    (hdurStale : ∀ e', lookupRow st.durable (normKey sym) = some e' →
      isFresh now e'.storedAt durableTtl = false)
    (hdeny : (st.limiter.tryAdmit now).1 = false) :
    (∀ e, lookupRow st.durable (normKey sym) = some e →
      (getQuote fastTtl durableTtl upstream st sym now).1 = .ok (e.value, .STALE_FALLBACK)) ∧
    (lookupRow st.durable (normKey sym) = none →
      (getQuote fastTtl durableTtl upstream st sym now).1 = .error .UpstreamUnavailable) := by
  have hfp : fetchPath upstream st (normKey sym) now = staleFallback st (normKey sym) := by
    unfold fetchPath
    cases ha : st.limiter.tryAdmit now with
    | mk b rl =>
      cases b with
      | false => rfl
      | true =>
        rw [ha] at hdeny
        simp at hdeny
  have hdp : durablePath durableTtl upstream st (normKey sym) now =
      staleFallback st (normKey sym) := by
    unfold durablePath
    cases hd : lookupRow st.durable (normKey sym) with
    | none => exact hfp
    | some e =>
      have hstale := hdurStale e hd
      simp only [hstale, Bool.false_eq_true, if_false]
      exact hfp
  have hg : getQuote fastTtl durableTtl upstream st sym now =
      staleFallback st (normKey sym) := by
    unfold getQuote
    cases hf : lookupRow st.fast (normKey sym) with
    | none => exact hdp
    | some e' =>
      have hstale := hfast e' hf
      simp only [hstale, Bool.false_eq_true, if_false]
      exact hdp
  constructor
  · intro e hd
    rw [hg]
    unfold staleFallback
    rw [hd]
  · intro hd
    rw [hg]
    unfold staleFallback
    rw [hd]

theorem coordinator_denied_stale_fallback_witness :
    (getQuote 60 60 (fun _ => some sampleQuote)
        ⟨[], [("AAPL", ⟨sampleQuote, 0⟩)], ⟨60, 5, [100, 100, 100, 100, 100]⟩, 0⟩
        "AAPL" 100).1
      = .ok (sampleQuote, .STALE_FALLBACK) :=
  (coordinator_denied_stale_fallback 60 60 (fun _ => some sampleQuote)
    ⟨[], [("AAPL", ⟨sampleQuote, 0⟩)], ⟨60, 5, [100, 100, 100, 100, 100]⟩, 0⟩
    "AAPL" 100
    (fun e' h => by simp [lookupRow] at h)
    (fun e' h => by
      have h2 : (some (⟨sampleQuote, 0⟩ : CacheEntry) : Option CacheEntry) =
          lookupRow (⟨[], [("AAPL", ⟨sampleQuote, 0⟩)],
            ⟨60, 5, [100, 100, 100, 100, 100]⟩, 0⟩ : CoordState).durable
            (normKey "AAPL") := by decide
      rw [← h2] at h
      cases h
      decide)
    (by decide)).1 ⟨sampleQuote, 0⟩ (by decide)

theorem fetchPath_fast (upstream : String → Option QuoteRecord)
    (st : CoordState) (key : String) (now : Nat) :
    (fetchPath upstream st key now).2.fast = st.fast ∨
    ∃ q, (fetchPath upstream st key now).1 = .ok (q, .UPSTREAM_FETCH) ∧
      (fetchPath upstream st key now).2.fast = (key, ⟨q, now⟩) :: st.fast := by
  unfold fetchPath
  cases ha : st.limiter.tryAdmit now with
  | mk b rl =>
    cases b with
    | false =>
      left
      rw [staleFallback_snd]
    | true =>
      cases hu : upstream key with
      | some q =>
        right
        exact ⟨q, rfl, rfl⟩
      | none =>
        left
        rw [staleFallback_snd]

theorem durablePath_fast (durableTtl : Nat) (upstream : String → Option QuoteRecord)
    (st : CoordState) (key : String) (now : Nat) :
    (durablePath durableTtl upstream st key now).2.fast = st.fast ∨
    ∃ q o, (durablePath durableTtl upstream st key now).1 = .ok (q, o) ∧
      (durablePath durableTtl upstream st key now).2.fast = (key, ⟨q, now⟩) :: st.fast := by
  cases hd : lookupRow st.durable key with
  | none =>
    simp only [durablePath, hd]
    rcases fetchPath_fast upstream st key now with h | ⟨q, h1, h2⟩
    · exact Or.inl h
    · exact Or.inr ⟨q, .UPSTREAM_FETCH, h1, h2⟩
  | some e =>
    by_cases hfr : isFresh now e.storedAt durableTtl = true
    · simp only [durablePath, hd, hfr, if_true]
      exact Or.inr ⟨e.value, .DURABLE_HIT, rfl, rfl⟩
    · simp only [durablePath, hd, hfr, if_false]
      rcases fetchPath_fast upstream st key now with h | ⟨q, h1, h2⟩
      · exact Or.inl h
      · exact Or.inr ⟨q, .UPSTREAM_FETCH, h1, h2⟩

theorem lookupRow_cons_self {α : Type} (k : String) (v : α)
    (rest : List (String × α)) :
    lookupRow ((k, v) :: rest) k = some v := by
  simp [lookupRow]

theorem getQuote_fast_entry (fastTtl durableTtl : Nat)
    (upstream : String → Option QuoteRecord) (st : CoordState) (sym : String)
    (t0 : Nat) (q : QuoteRecord) (o : Origin) (e : CacheEntry)
    (h : (getQuote fastTtl durableTtl upstream st sym t0).1 = .ok (q, o))
    (hent : lookupRow (getQuote fastTtl durableTtl upstream st sym t0).2.fast
      (normKey sym) = some e) :
    e.value = q ∨ isFresh t0 e.storedAt fastTtl = false := by
  cases hf : lookupRow st.fast (normKey sym) with
  | some e0 =>
    by_cases hfr : isFresh t0 e0.storedAt fastTtl = true
    · have hgq : getQuote fastTtl durableTtl upstream st sym t0 =
          (.ok (e0.value, .FAST_HIT), st) := by
        simp only [getQuote, hf, hfr, if_true]
      rw [hgq] at h hent
      simp only [Except.ok.injEq, Prod.mk.injEq] at h
      rw [hf] at hent
      simp only [Option.some.injEq] at hent
      subst hent
      exact Or.inl h.1
    · have hfr' : isFresh t0 e0.storedAt fastTtl = false := by
        simpa using hfr
      have hgq : getQuote fastTtl durableTtl upstream st sym t0 =
          durablePath durableTtl upstream st (normKey sym) t0 := by
        simp only [getQuote, hf, hfr', Bool.false_eq_true, if_false]
      rw [hgq] at h hent
      rcases durablePath_fast durableTtl upstream st (normKey sym) t0 with
        hsame | ⟨q', o', h1, h2⟩
      · rw [hsame, hf] at hent
        simp only [Option.some.injEq] at hent
        subst hent
        exact Or.inr hfr'
      · rw [h1] at h
        simp only [Except.ok.injEq, Prod.mk.injEq] at h
        rw [h2, lookupRow_cons_self] at hent
        simp only [Option.some.injEq] at hent
        subst hent
        exact Or.inl h.1
  | none =>
    have hgq : getQuote fastTtl durableTtl upstream st sym t0 =
        durablePath durableTtl upstream st (normKey sym) t0 := by
      simp only [getQuote, hf]
    rw [hgq] at h hent
    rcases durablePath_fast durableTtl upstream st (normKey sym) t0 with
      hsame | ⟨q', o', h1, h2⟩
    · rw [hsame, hf] at hent
      cases hent
    · rw [h1] at h
      simp only [Except.ok.injEq, Prod.mk.injEq] at h
      rw [h2, lookupRow_cons_self] at hent
      simp only [Option.some.injEq] at hent
      subst hent
      exact Or.inl h.1

/-- C4: if `GetQuote` succeeds at time `t0` and is called again for the same
symbol at `t1`, and `t1` lies within the quote TTL (60s) of the moment the
first result was stored in FastStore, then the second call returns the same
`QuoteRecord` tagged `FAST_HIT`. -/
theorem coordinator_repeat_fast_hit (durableTtl : Nat)
    (upstream : String → Option QuoteRecord) (st st1 : CoordState)
    (sym : String) (t0 t1 : Nat) (q : QuoteRecord) (o : Origin) (e : CacheEntry)
    (h01 : t0 ≤ t1)
    (hfirst : getQuote quoteTtl durableTtl upstream st sym t0 = (.ok (q, o), st1))
    (hent : lookupRow st1.fast (normKey sym) = some e)
    (hfresh : isFresh t1 e.storedAt quoteTtl = true) :
    (getQuote quoteTtl durableTtl upstream st1 sym t1).1 = .ok (q, .FAST_HIT) := by
  have h1 : (getQuote quoteTtl durableTtl upstream st sym t0).1 = .ok (q, o) := by
    rw [hfirst]
  have h2 : (getQuote quoteTtl durableTtl upstream st sym t0).2 = st1 := by
    rw [hfirst]
  have hvq : e.value = q := by
    rcases getQuote_fast_entry quoteTtl durableTtl upstream st sym t0 q o e h1
        (by rw [h2]; exact hent) with hv | hstale
    · exact hv
    · exfalso
      simp only [isFresh, decide_eq_true_eq, decide_eq_false_iff_not] at hfresh hstale
      omega
  simp only [getQuote, hent, hfresh, if_true, ← hvq]

theorem coordinator_repeat_fast_hit_witness :
    (getQuote quoteTtl 300 (fun _ => some sampleQuote)
        ⟨[("AAPL", ⟨sampleQuote, 0⟩)], [("AAPL", ⟨sampleQuote, 0⟩)], ⟨60, 5, [0]⟩, 1⟩
        "AAPL" 30).1 = .ok (sampleQuote, .FAST_HIT) :=
  coordinator_repeat_fast_hit 300 (fun _ => some sampleQuote)
    ⟨[], [], limiter0, 0⟩
    ⟨[("AAPL", ⟨sampleQuote, 0⟩)], [("AAPL", ⟨sampleQuote, 0⟩)], ⟨60, 5, [0]⟩, 1⟩
    "AAPL" 0 30 sampleQuote .UPSTREAM_FETCH ⟨sampleQuote, 0⟩
    (by decide) (by rfl) (by decide) (by decide)

/-! ## Single-flight deduplication (spec 5, design note in spec 9) -/

/-- Phase of one requester of a single cache key in the single-flight
regime. -/
inductive Phase
  | start
  | fetching
  | waiting
  | done
deriving Repr, DecidableEq

/-- Modelled from the spec: the concurrency regime of spec section 5 for one
cache key (the in-flight deduplication code is not evidenced in the available
sources; spec section 9 specifies the single-flight pattern).  `n` requesters
each run the coordinator for the same key; `inFlight` is the key's logical
in-flight-fetch slot, `cached` whether a result is available for reuse, and
`upCalls` counts UpstreamClient invocations for the key. -/
structure FlightConfig (n : Nat) where
  phases : Fin n → Phase
  inFlight : Bool
  cached : Bool
  upCalls : Nat

/-- Modelled from the spec: the interleaved small-step transitions of spec
section 5.  A requester that finds the result cached reuses it; one that
finds the slot free occupies it and calls upstream; one that finds the slot
occupied suspends; a completing fetch publishes the result and frees the
slot; a suspended requester resumes once the result is available. -/
inductive FlightStep {n : Nat} : FlightConfig n → FlightConfig n → Prop
  | hitCache (c : FlightConfig n) (i : Fin n) :
      c.phases i = .start → c.cached = true →
      FlightStep c { c with phases := Function.update c.phases i .done }
  | beginFetch (c : FlightConfig n) (i : Fin n) :
      c.phases i = .start → c.cached = false → c.inFlight = false →
      FlightStep c { c with phases := Function.update c.phases i .fetching,
                            inFlight := true, upCalls := c.upCalls + 1 }
  | joinWait (c : FlightConfig n) (i : Fin n) :
      c.phases i = .start → c.cached = false → c.inFlight = true →
      FlightStep c { c with phases := Function.update c.phases i .waiting }
  | completeFetch (c : FlightConfig n) (i : Fin n) :
      c.phases i = .fetching →
      FlightStep c { c with phases := Function.update c.phases i .done,
                            inFlight := false, cached := true }
  | resumeWait (c : FlightConfig n) (i : Fin n) :
      c.phases i = .waiting → c.cached = true →
      FlightStep c { c with phases := Function.update c.phases i .done }

/-- Initial configuration: the key uncached, no fetch in flight, all
requesters about to start, no upstream calls made. -/
def flightInit (n : Nat) : FlightConfig n := ⟨fun _ => .start, false, false, 0⟩

/-- Reachability along any interleaving of requester steps. -/
def FlightReach {n : Nat} : FlightConfig n → FlightConfig n → Prop :=
  Relation.ReflTransGen FlightStep

/-- Inductive invariant of the single-flight system: the call counter is
tied to the slot/cache flags, only one requester can occupy the slot, any
progress implies the slot or the cache is active, and an occupied slot has
its occupying fetcher. -/
def FlightInv {n : Nat} (c : FlightConfig n) : Prop :=
  (c.upCalls = if c.inFlight || c.cached then 1 else 0) ∧
  (∀ i, c.phases i = .fetching → c.inFlight = true) ∧
  (∀ i j, c.phases i = .fetching → c.phases j = .fetching → i = j) ∧
  (∀ i, c.phases i ≠ .start → (c.inFlight = true ∨ c.cached = true)) ∧
  (c.inFlight = true → ∃ i, c.phases i = .fetching)

theorem flightInv_init (n : Nat) : FlightInv (flightInit n) := by
  refine ⟨by simp [flightInit], ?_, ?_, ?_, ?_⟩
  · intro i h
    simp [flightInit] at h
  · intro i j hi _
    simp [flightInit] at hi
  · intro i h
    simp [flightInit] at h
  · intro h
    simp [flightInit] at h

theorem flightInv_step {n : Nat} {c c' : FlightConfig n}
    (hinv : FlightInv c) (hstep : FlightStep c c') : FlightInv c' := by
  obtain ⟨i1, i2, i3, i4, i5⟩ := hinv
  cases hstep with
  | hitCache i hst hca =>
    refine ⟨i1, ?_, ?_, ?_, ?_⟩
    · intro j hj
      by_cases hji : j = i
      · subst hji
        simp only [Function.update_same] at hj
        cases hj
      · simp only [Function.update_noteq hji] at hj
        exact i2 j hj
    · intro j k hj hk
      by_cases hji : j = i
      · subst hji
        simp only [Function.update_same] at hj
        cases hj
      · by_cases hki : k = i
        · subst hki
          simp only [Function.update_same] at hk
          cases hk
        · simp only [Function.update_noteq hji] at hj
          simp only [Function.update_noteq hki] at hk
          exact i3 j k hj hk
    · intro j _
      by_cases hji : j = i
      · exact Or.inr hca
      · by_cases hj' : c.phases j = .start
        · rename_i hne
          simp only [Function.update_noteq hji] at hne
          exact absurd hj' hne
        · exact i4 j hj'
    · intro hif
      obtain ⟨j, hj⟩ := i5 hif
      have hji : j ≠ i := by
        intro hEq
        rw [hEq, hst] at hj
        cases hj
      exact ⟨j, by simp only [Function.update_noteq hji]; exact hj⟩
  | beginFetch i hst hca hif =>
    refine ⟨?_, ?_, ?_, ?_, ?_⟩
    · rw [hif, hca] at i1
      simp only [Bool.or_self, if_false] at i1
      simp [i1]
    · intro j _
      rfl
    · intro j k hj hk
      by_cases hji : j = i
      · by_cases hki : k = i
        · rw [hji, hki]
        · simp only [Function.update_noteq hki] at hk
          have := i2 k hk
          rw [hif] at this
          cases this
      · simp only [Function.update_noteq hji] at hj
        have := i2 j hj
        rw [hif] at this
        cases this
    · intro j _
      exact Or.inl rfl
    · intro _
      exact ⟨i, Function.update_same i .fetching c.phases⟩
  | joinWait i hst hca hif =>
    refine ⟨i1, ?_, ?_, ?_, ?_⟩
    · intro j hj
      by_cases hji : j = i
      · subst hji
        simp only [Function.update_same] at hj
        cases hj
      · simp only [Function.update_noteq hji] at hj
        exact i2 j hj
    · intro j k hj hk
      by_cases hji : j = i
      · subst hji
        simp only [Function.update_same] at hj
        cases hj
      · by_cases hki : k = i
        · subst hki
          simp only [Function.update_same] at hk
          cases hk
        · simp only [Function.update_noteq hji] at hj
          simp only [Function.update_noteq hki] at hk
          exact i3 j k hj hk
    · intro j _
      exact Or.inl hif
    · intro _
      obtain ⟨j, hj⟩ := i5 hif
      have hji : j ≠ i := by
        intro hEq
        rw [hEq, hst] at hj
        cases hj
      exact ⟨j, by simp only [Function.update_noteq hji]; exact hj⟩
  | completeFetch i hft =>
    refine ⟨?_, ?_, ?_, ?_, ?_⟩
    · rw [i2 i hft] at i1
      simpa using i1
    · intro j hj
      by_cases hji : j = i
      · subst hji
        simp only [Function.update_same] at hj
        cases hj
      · simp only [Function.update_noteq hji] at hj
        exact absurd (i3 j i hj hft) hji
    · intro j k hj hk
      by_cases hji : j = i
      · subst hji
        simp only [Function.update_same] at hj
        cases hj
      · simp only [Function.update_noteq hji] at hj
        exact absurd (i3 j i hj hft) hji
    · intro j _
      exact Or.inr rfl
    · intro h5
      cases h5
  | resumeWait i hwt hca =>
    refine ⟨i1, ?_, ?_, ?_, ?_⟩
    · intro j hj
      by_cases hji : j = i
      · subst hji
        simp only [Function.update_same] at hj
        cases hj
      · simp only [Function.update_noteq hji] at hj
        exact i2 j hj
    · intro j k hj hk
      by_cases hji : j = i
      · subst hji
        simp only [Function.update_same] at hj
        cases hj
      · by_cases hki : k = i
        · subst hki
          simp only [Function.update_same] at hk
          cases hk
        · simp only [Function.update_noteq hji] at hj
          simp only [Function.update_noteq hki] at hk
          exact i3 j k hj hk
    · intro j _
      exact Or.inr hca
    · intro hif
      obtain ⟨j, hj⟩ := i5 hif
      have hji : j ≠ i := by
        intro hEq
        rw [hEq, hwt] at hj
        cases hj
      exact ⟨j, by simp only [Function.update_noteq hji]; exact hj⟩

theorem flightInv_reach {n : Nat} {c : FlightConfig n}
    (h : FlightReach (flightInit n) c) : FlightInv c := by
  induction h with
  | refl => exact flightInv_init n
  | tail _ hstep ih => exact flightInv_step ih hstep

/-- C2: in every interleaving of concurrent requesters of one uncached key,
at most one UpstreamClient call is ever made, and once every requester has
completed (with at least one requester present) exactly one UpstreamClient
call has been made: later callers received the in-flight or published result
instead of fetching again. -/
theorem singleflight_one_upstream_call (n : Nat) (c : FlightConfig n)
    (h : FlightReach (flightInit n) c) :
    c.upCalls ≤ 1 ∧
    (0 < n → (∀ i, c.phases i = .done) → c.upCalls = 1) := by
  obtain ⟨i1, i2, i3, i4, i5⟩ := flightInv_reach h
  constructor
  · rw [i1]
    split <;> omega
  · intro hn hall
    have hne : c.phases ⟨0, hn⟩ ≠ .start := by
      rw [hall ⟨0, hn⟩]
      intro hEq
      cases hEq
    rcases i4 ⟨0, hn⟩ hne with hif | hca
    · obtain ⟨j, hj⟩ := i5 hif
      rw [hall j] at hj
      cases hj
    · rw [i1, hca]
      simp

theorem singleflight_one_upstream_call_witness :
    (flightInit 1).upCalls ≤ 1 ∧
    (0 < 1 → (∀ i, (flightInit 1).phases i = .done) → (flightInit 1).upCalls = 1) :=
  singleflight_one_upstream_call 1 (flightInit 1) Relation.ReflTransGen.refl

/-! ## Frontend SearchScreen.searchStocks (src/unnamed/part_002) -/

/-- A search result row as consumed by SearchScreen: symbol, name, type,
region, currency. -/
structure SearchResult where
  symbol : String
  name : String
  type : String
  region : String
  currency : String
deriving Repr, DecidableEq

/-- Both-ends whitespace trim over the character list, mirroring the
JavaScript `String.prototype.trim` used by the screen; stated over `data`
so that it evaluates by kernel reduction. -/
def trimWs (s : String) : String :=
  ⟨((s.data.dropWhile Char.isWhitespace).reverse.dropWhile Char.isWhitespace).reverse⟩

/-- Embedded from `searchStocks` in SearchScreen.js (src/unnamed/part_002,
lines 22-42).  A query whose trimmed form is empty (JavaScript falsy
`query.trim()`) sets the result list to `[]` and returns without issuing any
request.  Otherwise one GET request to `/search/{query}` is issued; a
successful response replaces the result list, a failed one leaves it
unchanged (the screen only alerts).  The first component collects the issued
request paths, the second is the resulting search-result state. -/
def searchStocks (backend : String → Option (List SearchResult))
    (query : String) (current : List SearchResult) :
    List String × List SearchResult :=
  if trimWs query = "" then ([], [])
  else
    match backend query with
    | some rs => (["/search/" ++ query], rs)
    | none => (["/search/" ++ query], current)

/-- C9: a query whose trimmed form is empty issues no HTTP request and sets
the search-result list to the empty list; a request to the `/search`
endpoint is issued only when the query has at least one non-whitespace
character (nonempty trimmed form). -/
theorem searchStocks_empty_query (backend : String → Option (List SearchResult))
    (query : String) (current : List SearchResult) :
    (trimWs query = "" → searchStocks backend query current = ([], [])) ∧
    ((searchStocks backend query current).1 ≠ [] → trimWs query ≠ "") := by
  constructor
  · intro h
    simp [searchStocks, h]
  · intro hreq h
    rw [show searchStocks backend query current = ([], []) from by simp [searchStocks, h]]
      at hreq
    exact hreq rfl

theorem searchStocks_empty_query_witness :
    searchStocks (fun _ => none) "   " [] = ([], []) :=
  (searchStocks_empty_query (fun _ => none) "   " []).1 (by decide)

/-! ## Frontend StockDetailScreen.fetchChartData (StockDetailScreen.js) -/

/-- One element of the chart series returned by `/stock/{symbol}/chart`:
its `date` string and `close` value (in integer cents). -/
structure ChartItem where
  date : String
  close : Int
deriving Repr, DecidableEq

/-- The chart model passed to the LineChart: parallel `labels` and `prices`
arrays (`datasets[0].data` in the screen). -/
structure ChartData where
  labels : List String
  prices : List Int
deriving Repr, DecidableEq

/-- The last `min k (length l)` elements of `l`, as JavaScript
`Array.prototype.slice(-k)` computes for positive `k`. -/
def sliceLast {α : Type} (k : Nat) (l : List α) : List α :=
  l.drop (l.length - k)

/-- Embedded from `fetchChartData` in StockDetailScreen.js (lines 38-64,
identical in src/unnamed/part_001).  A missing series (request error or
absent `response.data.data`) or an empty one sets no chart model; otherwise
the labels are the formatted dates and the prices the `close` fields of the
last `slice(-7)` elements.  The JavaScript date formatting
`month/day` of `new Date(item.date)` is abstracted as `fmtDate`. -/
def fetchChartData (fmtDate : String → String)
    (response : Option (List ChartItem)) : Option ChartData :=
  match response with
  | none => none
  | some data =>
    if 0 < data.length then
      some ⟨(sliceLast 7 data).map (fun item => fmtDate item.date),
            (sliceLast 7 data).map (fun item => item.close)⟩
    else none

theorem sliceLast_length {α : Type} (k : Nat) (l : List α) :
    (sliceLast k l).length = min k l.length := by
  simp only [sliceLast, List.length_drop]
  omega

/-- C10: whenever `fetchChartData` sets a chart model for a series, its
labels and prices are the date-derived labels and `close` fields of exactly
the last `min 7 (length)` elements of the series, in order and of equal
length; a missing or empty series sets no chart model. -/
theorem fetchChartData_spec (fmtDate : String → String)
    (data : List ChartItem) (m : ChartData)
    (hm : fetchChartData fmtDate (some data) = some m) :
    m.labels = (sliceLast 7 data).map (fun item => fmtDate item.date) ∧
    m.prices = (sliceLast 7 data).map (fun item => item.close) ∧
    m.labels.length = min 7 data.length ∧
    m.prices.length = min 7 data.length ∧
    fetchChartData fmtDate (none : Option (List ChartItem)) = none ∧
    fetchChartData fmtDate (some ([] : List ChartItem)) = none := by
  simp only [fetchChartData] at hm
  by_cases hlen : 0 < data.length
  · rw [if_pos hlen] at hm
    simp only [Option.some.injEq] at hm
    subst hm
    refine ⟨rfl, rfl, ?_, ?_, rfl, rfl⟩
    · simp [sliceLast_length]
    · simp [sliceLast_length]
  · rw [if_neg hlen] at hm
    cases hm

theorem fetchChartData_spec_witness :
    (⟨["2024-01-01", "2024-01-02"], [5, 6]⟩ : ChartData).labels =
      (sliceLast 7 [(⟨"2024-01-01", 5⟩ : ChartItem), ⟨"2024-01-02", 6⟩]).map
        (fun item => id item.date) :=
  (fetchChartData_spec id [⟨"2024-01-01", 5⟩, ⟨"2024-01-02", 6⟩]
    ⟨["2024-01-01", "2024-01-02"], [5, 6]⟩ (by rfl)).1

end RobinhoodClone
